import Mathlib

/-!
Verification of the ollama-proxy streaming gateway.

This file gives a shallow embedding of the core of the repository:

* the namespacing / routing layer (`map_model_name`, `unmap_model` from
  `src/main.rs`),
* the stream aggregator (`collect_content_from_stream` from `src/main.rs`),
* the two wire decoders (the bodies of `OllamaProvider::chat` in
  `src/providers/ollama_provider.rs` and `OpenAIProvider::chat` in
  `src/providers/openai_provider.rs`).

Rust strings are modelled as lists of Unicode scalar values (`Str := List Nat`),
raw network bytes as `List Nat`, and the upstream HTTP interaction as an
explicit data type (`ChatUpstream`).  The async generator streams of the Rust
code are modelled as the finite list of items they yield.  `serde_json`
deserialisation of a single complete line is kept abstract: the decoders are
parametrised over a line-parse function (`Str → Option _`), so every theorem
below holds for the actual serde parser in particular; concrete theorems
instantiate the parameter with small table parsers that agree with serde on
the strings they are applied to.  Wall-clock timestamps (`created_at`,
produced by `chrono::Utc::now`) are abstracted as the empty string.
-/

namespace OllamaProxy

/-- Rust `String` / `str`, as the list of its Unicode scalar values. -/
abbrev Str := List Nat

/-- Interpret a Lean string literal as a `Str` (list of scalar values). -/
def litStr (s : String) : Str := s.data.map Char.toNat

/-- The Unicode `White_Space` property, which Rust's `str::trim` strips.
Codepoints from the Unicode `PropList` `White_Space` list. -/
def isWs (c : Nat) : Bool :=
  c = 0x9 || c = 0xA || c = 0xB || c = 0xC || c = 0xD || c = 0x20 ||
  c = 0x85 || c = 0xA0 || c = 0x1680 ||
  (0x2000 ≤ c && c ≤ 0x200A) ||
  c = 0x2028 || c = 0x2029 || c = 0x202F || c = 0x205F || c = 0x3000

/-- Rust `str::trim`: drop whitespace from both ends. -/
def trim (s : Str) : Str :=
  ((s.dropWhile isWs).reverse.dropWhile isWs).reverse

/-- The line-buffering loop of both decoders
(`while let Some(line_end) = buffer.find('\n') { ... buffer.drain(..=line_end) }`):
split a buffer into the list of complete (newline-terminated) lines, in order,
and the remainder after the last newline.  The returned lines are untrimmed;
trimming happens in the per-line processing. -/
def splitNl : Str → List Str × Str
  | [] => ([], [])
  | c :: rest =>
    let p := splitNl rest
    if c = 10 then ([] :: p.1, p.2)
    else
      match p.1 with
      | [] => ([], c :: p.2)
      | l :: ls => ((c :: l) :: ls, p.2)

/-- A Unicode scalar value (what a Rust `char` may hold). -/
def ValidCp (n : Nat) : Prop := n < 0xD800 ∨ (0xE000 ≤ n ∧ n < 0x110000)

instance (n : Nat) : Decidable (ValidCp n) := by
  unfold ValidCp; infer_instance

/-- UTF-8 encoding of one scalar value. -/
def utf8EncodeCp (n : Nat) : List Nat :=
  if n < 0x80 then [n]
  else if n < 0x800 then [0xC0 + n / 64, 0x80 + n % 64]
  else if n < 0x10000 then
    [0xE0 + n / 4096, 0x80 + n / 64 % 64, 0x80 + n % 64]
  else
    [0xF0 + n / 262144, 0x80 + n / 4096 % 64, 0x80 + n / 64 % 64, 0x80 + n % 64]

/-- UTF-8 encoding of a string. -/
def utf8Encode (s : Str) : List Nat := s.flatMap utf8EncodeCp

/-- State of the strict UTF-8 validator/decoder: failed, at a character
boundary with the scalar values decoded so far, or inside a multi-byte
sequence (`acc` the bits so far, `k` continuation bytes still expected, the
next one constrained to `lo ≤ b ≤ hi`; after it the constraint is the plain
continuation range `0x80..0xBF`). -/
inductive U8State
  | fail
  | clean (out : Str)
  | mid (out : Str) (acc : Nat) (k : Nat) (lo : Nat) (hi : Nat)

/-- One byte of strict UTF-8 decoding. The lead-byte table is the one
`std::str::from_utf8` enforces: overlong forms (`C0`/`C1`, and the restricted
first-continuation ranges after `E0`/`F0`), surrogates (after `ED`) and
values above `0x10FFFF` (lead above `F4`, restricted range after `F4`) are
rejected. -/
def u8step : U8State → Nat → U8State
  | .fail, _ => .fail
  | .clean out, b =>
    if b < 0x80 then .clean (out ++ [b])
    else if b < 0xC2 then .fail
    else if b ≤ 0xDF then .mid out (b - 0xC0) 1 0x80 0xBF
    else if b = 0xE0 then .mid out 0 2 0xA0 0xBF
    else if b = 0xED then .mid out 13 2 0x80 0x9F
    else if b ≤ 0xEF then .mid out (b - 0xE0) 2 0x80 0xBF
    else if b = 0xF0 then .mid out 0 3 0x90 0xBF
    else if b ≤ 0xF3 then .mid out (b - 0xF0) 3 0x80 0xBF
    else if b = 0xF4 then .mid out 4 3 0x80 0x8F
    else .fail
  | .mid out acc k lo hi, b =>
    if lo ≤ b && b ≤ hi then
      if k = 1 then .clean (out ++ [acc * 64 + (b - 0x80)])
      else .mid out (acc * 64 + (b - 0x80)) (k - 1) 0x80 0xBF
    else .fail

/-- Strict UTF-8 decoding of a whole byte sequence, `none` on any ill-formed
or incomplete input, as `std::str::from_utf8` behaves (a trailing incomplete
character is an error too). -/
def utf8Decode (bs : List Nat) : Option Str :=
  match bs.foldl u8step (.clean []) with
  | .clean out => some out
  | _ => none

/-- `models::Message` (`src/models/mod.rs`). -/
structure Message where
  role : Str
  content : Str
deriving DecidableEq

/-- `models::StreamChatChunk` (`src/models/mod.rs`): the canonical chunk.
`created_at` is a wall-clock timestamp in the source; it is abstracted as the
empty string here. -/
structure StreamChatChunk where
  model : Str
  message : Message
  created_at : Str
  done : Bool
deriving DecidableEq

/-- `providers::ProviderError`, refined by which `format!` message the source
builds at each error site. -/
inductive ProviderError
  | requestFailed
  | httpError (status : Nat) (body : Str)
  | streamReadError
  | utf8Error
  | jsonError
deriving DecidableEq

/-- One item of a `ChatChunkStream`. -/
abbrev ChatItem := Except ProviderError StreamChatChunk

/-- One `bytes_stream()` read: a byte fragment (arbitrary split points) or a
transport read error. -/
inductive ReadEvent
  | bytes (bs : List Nat)
  | readErr
deriving DecidableEq

/-- The upstream HTTP interaction as observed by a `chat` call: either
`send()` fails, or a response arrives with a status code, a body text (read
only on non-2xx) and a sequence of body-stream read events. -/
inductive ChatUpstream
  | requestFail
  | response (status : Nat) (errorText : Str) (events : List ReadEvent)

/-- `reqwest::StatusCode::is_success`. -/
def is_success (status : Nat) : Bool := 200 ≤ status && status < 300

/-- `ollama_provider::MessageContent` (the `message` field of a parsed line). -/
structure MessageContent where
  content : Str
deriving DecidableEq

/-- `ollama_provider::OllamaChatChunk`: the shape `serde_json::from_str`
produces for one OllamaStyle line. -/
structure OllamaChatChunk where
  message : Option MessageContent
  done : Bool
deriving DecidableEq

/-- `openai_provider::Delta`. -/
structure Delta where
  content : Option Str
deriving DecidableEq

/-- `openai_provider::Choice`. -/
structure Choice where
  delta : Option Delta
deriving DecidableEq

/-- `openai_provider::OpenaiChatChunk`: the shape `serde_json::from_str`
produces for one SSE `data:` payload. -/
structure OpenaiChatChunk where
  choices : List Choice
deriving DecidableEq

def assistantStr : Str := litStr "assistant"

/-- Build the `StreamChatChunk` both decoders yield (role fixed to
`"assistant"`, timestamp abstracted). -/
def mkChunk (model content : Str) (done : Bool) : StreamChatChunk :=
  ⟨model, ⟨assistantStr, content⟩, [], done⟩

/-- The per-line loop body of `OllamaProvider::chat`
(`src/providers/ollama_provider.rs`, lines 157-194), applied to a batch of
complete lines: returns the items yielded and whether the generator executed
`return` (on `done=true` after a message, or on a JSON parse error).
Note the source checks `chunk.done` only inside `if let Some(message)`:
a line without `message` is skipped entirely and its `done` is never read. -/
def ollamaProcLines (parse : Str → Option OllamaChatChunk) (model : Str) :
    List Str → List ChatItem × Bool
  | [] => ([], false)
  | l :: ls =>
    let line := trim l
    if line = [] then ollamaProcLines parse model ls
    else
      match parse line with
      | none => ([.error .jsonError], true)
      | some c =>
        match c.message with
        | none => ollamaProcLines parse model ls
        | some m =>
          if c.done then ([.ok (mkChunk model m.content true)], true)
          else
            let p := ollamaProcLines parse model ls
            (.ok (mkChunk model m.content false) :: p.1, p.2)

/-- The fragment loop of `OllamaProvider::chat` (lines 134-196): pull byte
fragments, validate UTF-8 per fragment, append to the buffer, process every
complete line; stop on `return`. When the upstream closes, the generator just
ends (any buffered partial line is dropped, no terminal chunk is added). -/
def ollamaRun (parse : Str → Option OllamaChatChunk) (model : Str) :
    List ReadEvent → Str → List ChatItem
  | [], _ => []
  | .readErr :: _, _ => [.error .streamReadError]
  | .bytes bs :: rest, buf =>
    match utf8Decode bs with
    | none => [.error .utf8Error]
    | some s =>
      let p := splitNl (buf ++ s)
      let q := ollamaProcLines parse model p.1
      if q.2 then q.1 else q.1 ++ ollamaRun parse model rest p.2

/-- The stream produced by `OllamaProvider::chat` (lines 102-197), as a
function of the upstream behaviour. -/
def ollamaChat (parse : Str → Option OllamaChatChunk) (model : Str) :
    ChatUpstream → List ChatItem
  | .requestFail => [.error .requestFailed]
  | .response status errorText events =>
    if is_success status then ollamaRun parse model events []
    else [.error (.httpError status errorText)]

/-- Outcome of processing one batch of complete lines in
`OpenAIProvider::chat`: keep reading, `stream_ended = true` (sentinel seen),
or `return` executed (JSON parse error). -/
inductive LineOutcome
  | more
  | ended
  | errored
deriving DecidableEq

def dataTag : Str := litStr "data: "

def doneLine : Str := litStr "data: [DONE]"

/-- Rust `line.strip_prefix("data: ")`. -/
def stripDataTag (l : Str) : Option Str :=
  if dataTag.isPrefixOf l then some (l.drop dataTag.length) else none

/-- The `if let Some(choice) = chunk.choices.first() && let Some(delta) =
&choice.delta && let Some(content) = &delta.content` chain of
`OpenAIProvider::chat`: the text of the first choice's delta, when all three
levels are present. -/
def deltaContent (c : OpenaiChatChunk) : Option Str :=
  match c.choices.head? with
  | none => none
  | some choice =>
    match choice.delta with
    | none => none
    | some d => d.content

/-- The per-line loop body of `OpenAIProvider::chat`
(`src/providers/openai_provider.rs`, lines 165-211), applied to a batch of
complete lines. The `data: [DONE]` sentinel breaks out of the loop,
discarding the remaining lines of the batch. A non-empty line without the
`data: ` frame is silently skipped, as is a payload whose first choice
carries no `delta.content`. Every emitted chunk has `done = false`. -/
def openaiProcLines (parse : Str → Option OpenaiChatChunk) (model : Str) :
    List Str → List ChatItem × LineOutcome
  | [] => ([], .more)
  | l :: ls =>
    let line := trim l
    if line = [] then openaiProcLines parse model ls
    else if line = doneLine then ([], .ended)
    else
      match stripDataTag line with
      | none => openaiProcLines parse model ls
      | some data =>
        match parse data with
        | none => ([.error .jsonError], .errored)
        | some c =>
          match deltaContent c with
          | none => openaiProcLines parse model ls
          | some content =>
            let p := openaiProcLines parse model ls
            (.ok (mkChunk model content false) :: p.1, p.2)

/-- The synthetic terminal chunk `OpenAIProvider::chat` yields after the loop
(lines 214-223): empty content, `done = true`. -/
def termChunk (model : Str) : StreamChatChunk := mkChunk model [] true

/-- The fragment loop of `OpenAIProvider::chat` (lines 142-224). When the
loop finishes without `return` — upstream closed or sentinel seen — exactly
one synthetic terminal chunk is yielded; every `return` path skips it. -/
def openaiRun (parse : Str → Option OpenaiChatChunk) (model : Str) :
    List ReadEvent → Str → List ChatItem
  | [], _ => [.ok (termChunk model)]
  | .readErr :: _, _ => [.error .streamReadError]
  | .bytes bs :: rest, buf =>
    match utf8Decode bs with
    | none => [.error .utf8Error]
    | some s =>
      let p := splitNl (buf ++ s)
      let q := openaiProcLines parse model p.1
      match q.2 with
      | .errored => q.1
      | .ended => q.1 ++ [.ok (termChunk model)]
      | .more => q.1 ++ openaiRun parse model rest p.2

/-- The stream produced by `OpenAIProvider::chat` (lines 114-227), as a
function of the upstream behaviour. -/
def openaiChat (parse : Str → Option OpenaiChatChunk) (model : Str) :
    ChatUpstream → List ChatItem
  | .requestFail => [.error .requestFailed]
  | .response status errorText events =>
    if is_success status then openaiRun parse model events []
    else [.error (.httpError status errorText)]

/-- `models::Model`, restricted to the two fields routing reads:
`name` is the provider-local model name, `model` the namespaced name. -/
structure Model where
  name : Str
  model : Str
deriving DecidableEq

/-- `map_model_name` (`src/main.rs`, lines 48-50):
`format!("[{}]-{}", provider_name, model_name)`. -/
def map_model_name (provider_name model_name : Str) : Str :=
  litStr "[" ++ provider_name ++ litStr "]-" ++ model_name

/-- A provider handle as routing sees it: its configured name and the
namespaced catalog its `get_models` reports. -/
structure Provider where
  name : Str
  models : List Model
deriving DecidableEq

/-- `unmap_model` (`src/main.rs`, lines 51-65): scan providers in order,
return the first whose catalog holds a model whose namespaced `model` field
equals the request's model name, paired with that model's local `name`.
The source's `panic!("Model '{}' not found in any provider, but that is
impossible")` — a process abort — is modelled as `none`. -/
def unmap_model (model_name : Str) : List Provider → Option (Provider × Str)
  | [] => none
  | p :: rest =>
    match p.models.find? (fun m => m.model == model_name) with
    | some m => some (p, m.name)
    | none => unmap_model model_name rest

/-- One entry of the config's provider list (`models::config::ProviderInfo`),
restricted to the fields the registry uses. -/
structure ProviderInfo where
  name : Str
  models : List Str

/-- The catalog construction of `load_providers` (`src/main.rs`): each
declared local model becomes `Model { name: local, model: namespaced }`. -/
def load_provider (info : ProviderInfo) : Provider :=
  ⟨info.name, info.models.map (fun m => ⟨m, map_model_name info.name m⟩)⟩

/-- `load_providers` (`src/main.rs`), keeping configuration order. -/
def load_providers (infos : List ProviderInfo) : List Provider :=
  infos.map load_provider

/-- The accumulator loop of `collect_content_from_stream`. -/
def collect_go (acc : Str) : List ChatItem → Except Unit Str
  | [] => .ok acc
  | .error _ :: _ => .error ()
  | .ok c :: rest =>
    collect_go (if c.done then acc else acc ++ c.message.content) rest

/-- `collect_content_from_stream` (`src/main.rs`, lines 32-47): drain the
stream, concatenating the content of every chunk with `done = false`; on the
first error item return `Err(())`, dropping the accumulated text. -/
def collect_content_from_stream (items : List ChatItem) : Except Unit Str :=
  collect_go [] items

/-! ### UTF-8 round trip

Decoding the UTF-8 encoding of a list of scalar values recovers the list;
this underlies the fragmentation results: a fragment cut at character
boundaries passes the per-fragment `std::str::from_utf8` validation. -/

theorem u8step_ascii (out : Str) (b : Nat) (h : b < 0x80) :
    u8step (.clean out) b = .clean (out ++ [b]) := by
  simp only [u8step, h, if_true]

theorem u8step_lead2 (out : Str) (b : Nat) (h1 : 0xC2 ≤ b) (h2 : b ≤ 0xDF) :
    u8step (.clean out) b = .mid out (b - 0xC0) 1 0x80 0xBF := by
  have e1 : ¬ b < 0x80 := by omega
  have e2 : ¬ b < 0xC2 := by omega
  simp only [u8step, e1, e2, h2, if_false, if_true]

theorem u8step_leadE0 (out : Str) : u8step (.clean out) 0xE0 = .mid out 0 2 0xA0 0xBF := by
  simp [u8step]

theorem u8step_leadED (out : Str) : u8step (.clean out) 0xED = .mid out 13 2 0x80 0x9F := by
  simp [u8step]

theorem u8step_lead3 (out : Str) (b : Nat) (h1 : 0xE0 ≤ b) (h2 : b ≤ 0xEF)
    (h3 : b ≠ 0xE0) (h4 : b ≠ 0xED) :
    u8step (.clean out) b = .mid out (b - 0xE0) 2 0x80 0xBF := by
  have e1 : ¬ b < 0x80 := by omega
  have e2 : ¬ b < 0xC2 := by omega
  have e3 : ¬ b ≤ 0xDF := by omega
  simp only [u8step, e1, e2, e3, h3, h4, h2, if_false, if_true]

theorem u8step_leadF0 (out : Str) : u8step (.clean out) 0xF0 = .mid out 0 3 0x90 0xBF := by
  simp [u8step]

theorem u8step_lead4 (out : Str) (b : Nat) (h1 : 0xF1 ≤ b) (h2 : b ≤ 0xF3) :
    u8step (.clean out) b = .mid out (b - 0xF0) 3 0x80 0xBF := by
  have e1 : ¬ b < 0x80 := by omega
  have e2 : ¬ b < 0xC2 := by omega
  have e3 : ¬ b ≤ 0xDF := by omega
  have e4 : b ≠ 0xE0 := by omega
  have e5 : b ≠ 0xED := by omega
  have e6 : ¬ b ≤ 0xEF := by omega
  have e7 : b ≠ 0xF0 := by omega
  simp only [u8step, e1, e2, e3, e4, e5, e6, e7, h2, if_false, if_true]

theorem u8step_leadF4 (out : Str) : u8step (.clean out) 0xF4 = .mid out 4 3 0x80 0x8F := by
  simp [u8step]

theorem u8step_mid_last (out : Str) (acc lo hi b : Nat) (h1 : lo ≤ b) (h2 : b ≤ hi) :
    u8step (.mid out acc 1 lo hi) b = .clean (out ++ [acc * 64 + (b - 0x80)]) := by
  simp only [u8step]
  rw [if_pos (by simp [h1, h2])]
  simp

theorem u8step_mid_more (out : Str) (acc k lo hi b : Nat) (h1 : lo ≤ b) (h2 : b ≤ hi)
    (hk : k ≠ 1) :
    u8step (.mid out acc k lo hi) b = .mid out (acc * 64 + (b - 0x80)) (k - 1) 0x80 0xBF := by
  simp only [u8step]
  rw [if_pos (by simp [h1, h2]), if_neg hk]

set_option maxRecDepth 8000 in
theorem u8run_encodeCp (n : Nat) (h : ValidCp n) (out : Str) :
    (utf8EncodeCp n).foldl u8step (.clean out) = .clean (out ++ [n]) := by
  unfold utf8EncodeCp
  split_ifs with h1 h2 h3
  · rw [List.foldl_cons, u8step_ascii _ _ h1, List.foldl_nil]
  · rw [List.foldl_cons, u8step_lead2 _ _ (by omega) (by omega),
      List.foldl_cons, u8step_mid_last _ _ _ _ _ (by omega) (by omega),
      List.foldl_nil]
    congr 2
    simp only [List.cons.injEq, and_true]
    omega
  · have hs : ¬ (0xD800 ≤ n ∧ n < 0xE000) := by
      rcases h with h | h
      all_goals omega
    rcases Nat.lt_or_ge n 0x1000 with hr | hr
    · have he : 0xE0 + n / 4096 = 0xE0 := by omega
      rw [List.foldl_cons, he, u8step_leadE0,
        List.foldl_cons, u8step_mid_more _ _ _ _ _ _ (by omega) (by omega) (by omega),
        List.foldl_cons, u8step_mid_last _ _ _ _ _ (by omega) (by omega),
        List.foldl_nil]
      congr 2
      simp only [List.cons.injEq, and_true]
      omega
    · rcases Nat.lt_or_ge n 0xD000 with hr2 | hr2
      · rw [List.foldl_cons, u8step_lead3 _ _ (by omega) (by omega) (by omega) (by omega),
          List.foldl_cons, u8step_mid_more _ _ _ _ _ _ (by omega) (by omega) (by omega),
          List.foldl_cons, u8step_mid_last _ _ _ _ _ (by omega) (by omega),
          List.foldl_nil]
        congr 2
        simp only [List.cons.injEq, and_true]
        omega
      · rcases Nat.lt_or_ge n 0xE000 with hr3 | hr3
        · have he : 0xE0 + n / 4096 = 0xED := by omega
          rw [List.foldl_cons, he, u8step_leadED,
            List.foldl_cons, u8step_mid_more _ _ _ _ _ _ (by omega) (by omega) (by omega),
            List.foldl_cons, u8step_mid_last _ _ _ _ _ (by omega) (by omega),
            List.foldl_nil]
          congr 2
          simp only [List.cons.injEq, and_true]
          omega
        · rw [List.foldl_cons, u8step_lead3 _ _ (by omega) (by omega) (by omega) (by omega),
            List.foldl_cons, u8step_mid_more _ _ _ _ _ _ (by omega) (by omega) (by omega),
            List.foldl_cons, u8step_mid_last _ _ _ _ _ (by omega) (by omega),
            List.foldl_nil]
          congr 2
          simp only [List.cons.injEq, and_true]
          omega
  · have hv : n < 0x110000 := by
      rcases h with h | h
      all_goals omega
    rcases Nat.lt_or_ge n 0x40000 with hr | hr
    · have he : 0xF0 + n / 262144 = 0xF0 := by omega
      rw [List.foldl_cons, he, u8step_leadF0,
        List.foldl_cons, u8step_mid_more _ _ _ _ _ _ (by omega) (by omega) (by omega),
        List.foldl_cons, u8step_mid_more _ _ _ _ _ _ (by omega) (by omega) (by omega),
        List.foldl_cons, u8step_mid_last _ _ _ _ _ (by omega) (by omega),
        List.foldl_nil]
      congr 2
      simp only [List.cons.injEq, and_true]
      omega
    · rcases Nat.lt_or_ge n 0x100000 with hr2 | hr2
      · rw [List.foldl_cons, u8step_lead4 _ _ (by omega) (by omega),
          List.foldl_cons, u8step_mid_more _ _ _ _ _ _ (by omega) (by omega) (by omega),
          List.foldl_cons, u8step_mid_more _ _ _ _ _ _ (by omega) (by omega) (by omega),
          List.foldl_cons, u8step_mid_last _ _ _ _ _ (by omega) (by omega),
          List.foldl_nil]
        congr 2
        simp only [List.cons.injEq, and_true]
        omega
      · have he : 0xF0 + n / 262144 = 0xF4 := by omega
        rw [List.foldl_cons, he, u8step_leadF4,
          List.foldl_cons, u8step_mid_more _ _ _ _ _ _ (by omega) (by omega) (by omega),
          List.foldl_cons, u8step_mid_more _ _ _ _ _ _ (by omega) (by omega) (by omega),
          List.foldl_cons, u8step_mid_last _ _ _ _ _ (by omega) (by omega),
          List.foldl_nil]
        congr 2
        simp only [List.cons.injEq, and_true]
        omega

theorem u8run_encode (s : Str) (h : ∀ c ∈ s, ValidCp c) (out : Str) :
    (utf8Encode s).foldl u8step (.clean out) = .clean (out ++ s) := by
  induction s generalizing out with
  | nil => simp [utf8Encode]
  | cons c s ih =>
    have hc : ValidCp c := h c (List.mem_cons_self c s)
    have hs : ∀ x ∈ s, ValidCp x := fun x hx => h x (List.mem_cons_of_mem c hx)
    simp only [utf8Encode, List.flatMap_cons, List.foldl_append]
    rw [u8run_encodeCp c hc out]
    have := ih hs (out ++ [c])
    simp only [utf8Encode] at this
    rw [this]
    simp

theorem utf8Decode_encode (s : Str) (h : ∀ c ∈ s, ValidCp c) :
    utf8Decode (utf8Encode s) = some s := by
  unfold utf8Decode
  rw [u8run_encode s h []]
  simp

/-! ### Line-buffer splitting -/

theorem splitNl_eq_of_noNl (s : Str) (h : ∀ c ∈ s, c ≠ 10) : splitNl s = ([], s) := by
  induction s with
  | nil => rfl
  | cons c rest ih =>
    have hc : c ≠ 10 := h c (List.mem_cons_self c rest)
    have hr := ih (fun x hx => h x (List.mem_cons_of_mem c hx))
    simp only [splitNl, hr, if_neg hc]

theorem splitNl_snd_noNl (s : Str) : ∀ c ∈ (splitNl s).2, c ≠ 10 := by
  induction s with
  | nil => simp [splitNl]
  | cons c rest ih =>
    intro x hx
    simp only [splitNl] at hx
    by_cases hc : c = 10
    · rw [if_pos hc] at hx
      exact ih x hx
    · rw [if_neg hc] at hx
      rcases hls : (splitNl rest).1 with _ | ⟨l, ls⟩
      · rw [hls] at hx
        simp only at hx
        rcases List.mem_cons.mp hx with hx | hx
        · subst hx; exact hc
        · exact ih x hx
      · rw [hls] at hx
        exact ih x hx

theorem splitNl_append (x y : Str) :
    splitNl (x ++ y) =
      ((splitNl x).1 ++ (splitNl ((splitNl x).2 ++ y)).1,
        (splitNl ((splitNl x).2 ++ y)).2) := by
  induction x with
  | nil => simp [splitNl]
  | cons c x ih =>
    rcases hsx : splitNl x with ⟨xl, xr⟩
    rcases hs : splitNl (xr ++ y) with ⟨s1, s2⟩
    by_cases hc : c = 10
    · subst hc
      have ihv : splitNl (x ++ y) = (xl ++ s1, s2) := by
        rw [ih, hsx]
        simp [hs]
      rw [List.cons_append, splitNl.eq_def]
      simp only [ihv, if_pos rfl]
      rw [splitNl.eq_def]
      simp only [if_pos rfl, hsx]
      simp [hs]
    · rcases hxl : xl with _ | ⟨a, as⟩
      · subst hxl
        have ihv : splitNl (x ++ y) = (s1, s2) := by
          rw [ih, hsx]
          simp [hs]
        rw [List.cons_append, splitNl.eq_def]
        simp only [ihv, if_neg hc]
        conv_rhs => rw [splitNl.eq_def]
        simp only [hsx, if_neg hc]
        rcases hs1 : s1 with _ | ⟨b, bs⟩
        · simp only [List.nil_append]
          rw [List.cons_append, splitNl.eq_def]
          simp only [hs, hs1, if_neg hc]
        · simp only [List.nil_append]
          rw [List.cons_append, splitNl.eq_def]
          simp only [hs, hs1, if_neg hc]
      · subst hxl
        have ihv : splitNl (x ++ y) = (a :: (as ++ s1), s2) := by
          rw [ih, hsx]
          simp [hs]
        rw [List.cons_append, splitNl.eq_def]
        simp only [ihv, if_neg hc]
        conv_rhs => rw [splitNl.eq_def]
        simp only [hsx, if_neg hc]
        simp [hs]

theorem splitNl_line (l : Str) (h : ∀ c ∈ l, c ≠ 10) (rest : Str) :
    splitNl (l ++ 10 :: rest) = (l :: (splitNl rest).1, (splitNl rest).2) := by
  induction l with
  | nil => simp [splitNl]
  | cons c l ih =>
    have hc : c ≠ 10 := h c (List.mem_cons_self c l)
    have ihr := ih (fun x hx => h x (List.mem_cons_of_mem c hx))
    rw [List.cons_append, splitNl.eq_def]
    simp only [ihr, if_neg hc]

/-- Join lines, each terminated by a newline, into one buffer. -/
def unlines (ls : List Str) : Str := ls.flatMap (fun l => l ++ [10])

theorem splitNl_unlines (ls : List Str) (h : ∀ l ∈ ls, ∀ c ∈ l, c ≠ 10) :
    splitNl (unlines ls) = (ls, []) := by
  induction ls with
  | nil => rfl
  | cons l ls ih =>
    have hl := h l (List.mem_cons_self l ls)
    have hls := ih (fun x hx => h x (List.mem_cons_of_mem l hx))
    simp only [unlines, List.flatMap_cons, List.append_assoc, List.cons_append,
      List.nil_append]
    rw [splitNl_line l hl]
    simp only [unlines] at hls
    rw [hls]

/-! ### Per-line stepping of the two decode loops -/

theorem oll_skip_empty (parse : Str → Option OllamaChatChunk) (model : Str)
    (l : Str) (ls : List Str) (ht : trim l = []) :
    ollamaProcLines parse model (l :: ls) = ollamaProcLines parse model ls := by
  rw [ollamaProcLines.eq_def]
  simp [ht]

theorem oll_parse_fail (parse : Str → Option OllamaChatChunk) (model : Str)
    (l : Str) (ls : List Str) (ht : trim l ≠ [])
    (hp : parse (trim l) = none) :
    ollamaProcLines parse model (l :: ls) = ([.error .jsonError], true) := by
  rw [ollamaProcLines.eq_def]
  simp [ht, hp]

theorem oll_no_msg (parse : Str → Option OllamaChatChunk) (model : Str)
    (l : Str) (ls : List Str) (c : OllamaChatChunk) (ht : trim l ≠ [])
    (hp : parse (trim l) = some c) (hm : c.message = none) :
    ollamaProcLines parse model (l :: ls) = ollamaProcLines parse model ls := by
  rw [ollamaProcLines.eq_def]
  simp [ht, hp, hm]

theorem oll_msg_done (parse : Str → Option OllamaChatChunk) (model : Str)
    (l : Str) (ls : List Str) (c : OllamaChatChunk) (m : MessageContent)
    (ht : trim l ≠ []) (hp : parse (trim l) = some c) (hm : c.message = some m)
    (hd : c.done = true) :
    ollamaProcLines parse model (l :: ls) =
      ([.ok (mkChunk model m.content true)], true) := by
  rw [ollamaProcLines.eq_def]
  simp [ht, hp, hm, hd]

theorem oll_msg_more (parse : Str → Option OllamaChatChunk) (model : Str)
    (l : Str) (ls : List Str) (c : OllamaChatChunk) (m : MessageContent)
    (ht : trim l ≠ []) (hp : parse (trim l) = some c) (hm : c.message = some m)
    (hd : c.done = false) :
    ollamaProcLines parse model (l :: ls) =
      (.ok (mkChunk model m.content false) :: (ollamaProcLines parse model ls).1,
        (ollamaProcLines parse model ls).2) := by
  rw [ollamaProcLines.eq_def]
  simp [ht, hp, hm, hd]

theorem opa_skip_empty (parse : Str → Option OpenaiChatChunk) (model : Str)
    (l : Str) (ls : List Str) (ht : trim l = []) :
    openaiProcLines parse model (l :: ls) = openaiProcLines parse model ls := by
  rw [openaiProcLines.eq_def]
  simp [ht]

theorem opa_sentinel (parse : Str → Option OpenaiChatChunk) (model : Str)
    (l : Str) (ls : List Str) (hd : trim l = doneLine) :
    openaiProcLines parse model (l :: ls) = ([], .ended) := by
  have hne : doneLine ≠ ([] : Str) := by decide
  rw [openaiProcLines.eq_def]
  simp [hd, hne]

theorem opa_no_tag (parse : Str → Option OpenaiChatChunk) (model : Str)
    (l : Str) (ls : List Str) (ht : trim l ≠ []) (hd : trim l ≠ doneLine)
    (hs : stripDataTag (trim l) = none) :
    openaiProcLines parse model (l :: ls) = openaiProcLines parse model ls := by
  rw [openaiProcLines.eq_def]
  simp [ht, hd, hs]

theorem opa_parse_fail (parse : Str → Option OpenaiChatChunk) (model : Str)
    (l d : Str) (ls : List Str) (ht : trim l ≠ []) (hd : trim l ≠ doneLine)
    (hs : stripDataTag (trim l) = some d) (hp : parse d = none) :
    openaiProcLines parse model (l :: ls) = ([.error .jsonError], .errored) := by
  rw [openaiProcLines.eq_def]
  simp [ht, hd, hs, hp]

theorem opa_no_content (parse : Str → Option OpenaiChatChunk) (model : Str)
    (l d : Str) (ls : List Str) (c : OpenaiChatChunk) (ht : trim l ≠ [])
    (hd : trim l ≠ doneLine) (hs : stripDataTag (trim l) = some d)
    (hp : parse d = some c) (hc : deltaContent c = none) :
    openaiProcLines parse model (l :: ls) = openaiProcLines parse model ls := by
  rw [openaiProcLines.eq_def]
  simp [ht, hd, hs, hp, hc]

theorem opa_content (parse : Str → Option OpenaiChatChunk) (model : Str)
    (l d : Str) (ls : List Str) (c : OpenaiChatChunk) (content : Str)
    (ht : trim l ≠ []) (hd : trim l ≠ doneLine)
    (hs : stripDataTag (trim l) = some d) (hp : parse d = some c)
    (hc : deltaContent c = some content) :
    openaiProcLines parse model (l :: ls) =
      (.ok (mkChunk model content false) :: (openaiProcLines parse model ls).1,
        (openaiProcLines parse model ls).2) := by
  rw [openaiProcLines.eq_def]
  simp [ht, hd, hs, hp, hc]

/-! ### Batch concatenation: processing lines in two batches equals
processing them in one batch -/

theorem ollamaProcLines_append (parse : Str → Option OllamaChatChunk)
    (model : Str) (l1 l2 : List Str) :
    ollamaProcLines parse model (l1 ++ l2) =
      (if (ollamaProcLines parse model l1).2
       then ollamaProcLines parse model l1
       else ((ollamaProcLines parse model l1).1 ++ (ollamaProcLines parse model l2).1,
         (ollamaProcLines parse model l2).2)) := by
  induction l1 with
  | nil => simp [ollamaProcLines]
  | cons l ls ih =>
    rw [List.cons_append]
    by_cases ht : trim l = []
    · rw [oll_skip_empty parse model l _ ht, oll_skip_empty parse model l _ ht, ih]
    · rcases hp : parse (trim l) with _ | c
      · rw [oll_parse_fail parse model l _ ht hp, oll_parse_fail parse model l _ ht hp]
        simp
      · rcases hm : c.message with _ | m
        · rw [oll_no_msg parse model l _ c ht hp hm, oll_no_msg parse model l _ c ht hp hm,
            ih]
        · rcases hd : c.done with _ | _
          · rw [oll_msg_more parse model l _ c m ht hp hm hd,
              oll_msg_more parse model l _ c m ht hp hm hd, ih]
            by_cases hstop : (ollamaProcLines parse model ls).2
            · simp [hstop]
            · simp [hstop]
          · rw [oll_msg_done parse model l _ c m ht hp hm hd,
              oll_msg_done parse model l _ c m ht hp hm hd]
            simp

theorem openaiProcLines_append (parse : Str → Option OpenaiChatChunk)
    (model : Str) (l1 l2 : List Str) :
    openaiProcLines parse model (l1 ++ l2) =
      (if (openaiProcLines parse model l1).2 = .more
       then ((openaiProcLines parse model l1).1 ++ (openaiProcLines parse model l2).1,
         (openaiProcLines parse model l2).2)
       else openaiProcLines parse model l1) := by
  induction l1 with
  | nil => simp [openaiProcLines]
  | cons l ls ih =>
    rw [List.cons_append]
    by_cases ht : trim l = []
    · rw [opa_skip_empty parse model l _ ht, opa_skip_empty parse model l _ ht, ih]
    · by_cases hdl : trim l = doneLine
      · rw [opa_sentinel parse model l _ hdl, opa_sentinel parse model l _ hdl]
        simp
      · rcases hs : stripDataTag (trim l) with _ | d
        · rw [opa_no_tag parse model l _ ht hdl hs, opa_no_tag parse model l _ ht hdl hs,
            ih]
        · rcases hp : parse d with _ | c
          · rw [opa_parse_fail parse model l d _ ht hdl hs hp,
              opa_parse_fail parse model l d _ ht hdl hs hp]
            simp
          · rcases hc : deltaContent c with _ | content
            · rw [opa_no_content parse model l d _ c ht hdl hs hp hc,
                opa_no_content parse model l d _ c ht hdl hs hp hc, ih]
            · rw [opa_content parse model l d _ c content ht hdl hs hp hc,
                opa_content parse model l d _ c content ht hdl hs hp hc, ih]
              by_cases hmore : (openaiProcLines parse model ls).2 = .more
              · simp [hmore]
              · simp [hmore]

/-! ### Fragmentation invariance of the decode loops -/

/-- All codepoints of a string are Unicode scalar values (true of any Rust
`String`). -/
def ValidStr (s : Str) : Prop := ∀ c ∈ s, ValidCp c

/-- The read events delivering the given character fragments, each UTF-8
encoded. -/
def encEvents (frags : List Str) : List ReadEvent :=
  frags.map (fun f => .bytes (utf8Encode f))

theorem ollamaRun_bytes (parse : Str → Option OllamaChatChunk) (model : Str)
    (bs : List Nat) (s : Str) (rest : List ReadEvent) (buf : Str)
    (h : utf8Decode bs = some s) :
    ollamaRun parse model (.bytes bs :: rest) buf =
      (if (ollamaProcLines parse model (splitNl (buf ++ s)).1).2
       then (ollamaProcLines parse model (splitNl (buf ++ s)).1).1
       else (ollamaProcLines parse model (splitNl (buf ++ s)).1).1 ++
         ollamaRun parse model rest (splitNl (buf ++ s)).2) := by
  rw [ollamaRun.eq_def]
  simp [h]

theorem openaiRun_bytes (parse : Str → Option OpenaiChatChunk) (model : Str)
    (bs : List Nat) (s : Str) (rest : List ReadEvent) (buf : Str)
    (h : utf8Decode bs = some s) :
    openaiRun parse model (.bytes bs :: rest) buf =
      (match (openaiProcLines parse model (splitNl (buf ++ s)).1).2 with
       | .errored => (openaiProcLines parse model (splitNl (buf ++ s)).1).1
       | .ended => (openaiProcLines parse model (splitNl (buf ++ s)).1).1 ++
           [.ok (termChunk model)]
       | .more => (openaiProcLines parse model (splitNl (buf ++ s)).1).1 ++
           openaiRun parse model rest (splitNl (buf ++ s)).2) := by
  rw [openaiRun.eq_def]
  simp [h]

theorem ollamaRun_merge (parse : Str → Option OllamaChatChunk) (model : Str)
    (f1 f2 : Str) (fs : List Str) (buf : Str)
    (h1 : ValidStr f1) (h2 : ValidStr f2) :
    ollamaRun parse model (encEvents (f1 :: f2 :: fs)) buf =
      ollamaRun parse model (encEvents ((f1 ++ f2) :: fs)) buf := by
  have d1 : utf8Decode (utf8Encode f1) = some f1 := utf8Decode_encode f1 h1
  have d2 : utf8Decode (utf8Encode f2) = some f2 := utf8Decode_encode f2 h2
  have d12 : utf8Decode (utf8Encode (f1 ++ f2)) = some (f1 ++ f2) :=
    utf8Decode_encode _ (by
      intro c hc
      rcases List.mem_append.mp hc with hc | hc
      · exact h1 c hc
      · exact h2 c hc)
  simp only [encEvents, List.map_cons]
  rw [ollamaRun_bytes parse model _ _ _ _ d1,
    ollamaRun_bytes parse model _ _ _ _ d12,
    ollamaRun_bytes parse model _ _ _ _ d2]
  have hsp : splitNl (buf ++ (f1 ++ f2)) =
      ((splitNl (buf ++ f1)).1 ++ (splitNl ((splitNl (buf ++ f1)).2 ++ f2)).1,
        (splitNl ((splitNl (buf ++ f1)).2 ++ f2)).2) := by
    rw [← List.append_assoc]
    exact splitNl_append (buf ++ f1) f2
  rw [hsp, ollamaProcLines_append]
  rcases hq1 : ollamaProcLines parse model (splitNl (buf ++ f1)).1 with ⟨i1, s1⟩
  rcases hq2 : ollamaProcLines parse model
      (splitNl ((splitNl (buf ++ f1)).2 ++ f2)).1 with ⟨i2, s2⟩
  rcases s1 with _ | _
  · rcases s2 with _ | _
    · simp
    · simp
  · simp

theorem openaiRun_merge (parse : Str → Option OpenaiChatChunk) (model : Str)
    (f1 f2 : Str) (fs : List Str) (buf : Str)
    (h1 : ValidStr f1) (h2 : ValidStr f2) :
    openaiRun parse model (encEvents (f1 :: f2 :: fs)) buf =
      openaiRun parse model (encEvents ((f1 ++ f2) :: fs)) buf := by
  have d1 : utf8Decode (utf8Encode f1) = some f1 := utf8Decode_encode f1 h1
  have d2 : utf8Decode (utf8Encode f2) = some f2 := utf8Decode_encode f2 h2
  have d12 : utf8Decode (utf8Encode (f1 ++ f2)) = some (f1 ++ f2) :=
    utf8Decode_encode _ (by
      intro c hc
      rcases List.mem_append.mp hc with hc | hc
      · exact h1 c hc
      · exact h2 c hc)
  simp only [encEvents, List.map_cons]
  rw [openaiRun_bytes parse model _ _ _ _ d1,
    openaiRun_bytes parse model _ _ _ _ d12,
    openaiRun_bytes parse model _ _ _ _ d2]
  have hsp : splitNl (buf ++ (f1 ++ f2)) =
      ((splitNl (buf ++ f1)).1 ++ (splitNl ((splitNl (buf ++ f1)).2 ++ f2)).1,
        (splitNl ((splitNl (buf ++ f1)).2 ++ f2)).2) := by
    rw [← List.append_assoc]
    exact splitNl_append (buf ++ f1) f2
  rw [hsp, openaiProcLines_append]
  rcases hq1 : openaiProcLines parse model (splitNl (buf ++ f1)).1 with ⟨i1, s1⟩
  rcases hq2 : openaiProcLines parse model
      (splitNl ((splitNl (buf ++ f1)).2 ++ f2)).1 with ⟨i2, s2⟩
  rcases s1 with _ | _ | _
  · rcases s2 with _ | _ | _
    · simp
    · simp
    · simp
  · simp
  · simp

theorem ollamaRun_flatten (parse : Str → Option OllamaChatChunk) (model : Str)
    (fs : List Str) (buf : Str) (hv : ∀ f ∈ fs, ValidStr f)
    (hbuf : ∀ c ∈ buf, c ≠ 10) :
    ollamaRun parse model (encEvents fs) buf =
      ollamaRun parse model (encEvents [fs.flatten]) buf := by
  induction fs generalizing buf with
  | nil =>
    simp only [List.flatten_nil, encEvents, List.map_nil, List.map_cons]
    rw [ollamaRun.eq_def]
    rw [ollamaRun_bytes parse model _ _ _ _ (utf8Decode_encode [] (by simp))]
    rw [List.append_nil, splitNl_eq_of_noNl buf hbuf]
    simp [ollamaProcLines, ollamaRun]
  | cons f fs ih =>
    have hf : ValidStr f := hv f (List.mem_cons_self f fs)
    have hfs : ∀ g ∈ fs, ValidStr g := fun g hg => hv g (List.mem_cons_of_mem f hg)
    have hflat : ValidStr fs.flatten := by
      intro c hc
      rcases List.mem_flatten.mp hc with ⟨g, hg, hcg⟩
      exact hfs g hg c hcg
    rw [List.flatten_cons, ← ollamaRun_merge parse model f fs.flatten [] buf hf hflat]
    simp only [encEvents, List.map_cons, List.map_nil]
    rw [ollamaRun_bytes parse model _ _ _ _ (utf8Decode_encode f hf),
      ollamaRun_bytes parse model _ _ _ _ (utf8Decode_encode f hf)]
    have hrec := ih (splitNl (buf ++ f)).2 hfs (splitNl_snd_noNl (buf ++ f))
    simp only [encEvents, List.map_cons, List.map_nil] at hrec
    rw [hrec]

theorem openaiRun_flatten (parse : Str → Option OpenaiChatChunk) (model : Str)
    (fs : List Str) (buf : Str) (hv : ∀ f ∈ fs, ValidStr f)
    (hbuf : ∀ c ∈ buf, c ≠ 10) :
    openaiRun parse model (encEvents fs) buf =
      openaiRun parse model (encEvents [fs.flatten]) buf := by
  induction fs generalizing buf with
  | nil =>
    simp only [List.flatten_nil, encEvents, List.map_nil, List.map_cons]
    rw [openaiRun.eq_def]
    rw [openaiRun_bytes parse model _ _ _ _ (utf8Decode_encode [] (by simp))]
    rw [List.append_nil, splitNl_eq_of_noNl buf hbuf]
    simp [openaiProcLines, openaiRun]
  | cons f fs ih =>
    have hf : ValidStr f := hv f (List.mem_cons_self f fs)
    have hfs : ∀ g ∈ fs, ValidStr g := fun g hg => hv g (List.mem_cons_of_mem f hg)
    have hflat : ValidStr fs.flatten := by
      intro c hc
      rcases List.mem_flatten.mp hc with ⟨g, hg, hcg⟩
      exact hfs g hg c hcg
    rw [List.flatten_cons, ← openaiRun_merge parse model f fs.flatten [] buf hf hflat]
    simp only [encEvents, List.map_cons, List.map_nil]
    rw [openaiRun_bytes parse model _ _ _ _ (utf8Decode_encode f hf),
      openaiRun_bytes parse model _ _ _ _ (utf8Decode_encode f hf)]
    have hrec := ih (splitNl (buf ++ f)).2 hfs (splitNl_snd_noNl (buf ++ f))
    simp only [encEvents, List.map_cons, List.map_nil] at hrec
    rw [hrec]

/-! ### Stream item classification and shape of decoder output -/

/-- Is this stream item an error item? -/
def isErrItem : ChatItem → Bool
  | .error _ => true
  | .ok _ => false

/-- Is this stream item a terminal chunk (`done = true`)? -/
def isTermItem : ChatItem → Bool
  | .ok c => c.done
  | .error _ => false

/-- Every item is an emitted chunk with `done = false` (no errors, no
terminal chunk). -/
def chunksOnly (l : List ChatItem) : Bool :=
  l.all (fun i => match i with
    | .ok c => !c.done
    | .error _ => false)

/-- No item before the last one satisfies `p` (vacuously true of streams of
length at most one). -/
def noneBeforeLast (p : ChatItem → Bool) : List ChatItem → Bool
  | [] => true
  | [_] => true
  | x :: y :: rest => !p x && noneBeforeLast p (y :: rest)

/-- Any error item can only be the final item of the stream (hence there is
at most one error item, and nothing follows it). -/
def errOnlyLast (l : List ChatItem) : Bool := noneBeforeLast isErrItem l

/-- The last item exists and is a terminal chunk. -/
def lastIsTerm (l : List ChatItem) : Bool :=
  match l.getLast? with
  | some i => isTermItem i
  | none => false

theorem chunksOnly_append (a b : List ChatItem) :
    chunksOnly (a ++ b) = (chunksOnly a && chunksOnly b) := by
  simp [chunksOnly]

theorem chunksOnly_no_err (a : List ChatItem) (h : chunksOnly a = true) :
    ∀ i ∈ a, isErrItem i = false := by
  intro i hi
  rcases i with e | c
  · simp only [chunksOnly, List.all_eq_true] at h
    exact absurd (h _ hi) (by simp)
  · simp [isErrItem]

theorem chunksOnly_no_term (a : List ChatItem) (h : chunksOnly a = true) :
    ∀ i ∈ a, isTermItem i = false := by
  intro i hi
  simp only [chunksOnly, List.all_eq_true] at h
  have := h i hi
  rcases i with e | c
  · simp at this
  · simp only [isTermItem]
    simpa using this

theorem noneBeforeLast_append_last (p : ChatItem → Bool) (pfx : List ChatItem)
    (x : ChatItem) (h : ∀ i ∈ pfx, p i = false) :
    noneBeforeLast p (pfx ++ [x]) = true := by
  induction pfx with
  | nil => rfl
  | cons a pfx ih =>
    have ha : p a = false := h a (List.mem_cons_self a pfx)
    have hrest := ih (fun i hi => h i (List.mem_cons_of_mem a hi))
    rcases pfx with _ | ⟨b, pfx⟩
    · simp [noneBeforeLast, ha]
    · simp only [List.cons_append, noneBeforeLast, ha] at hrest ⊢
      simp [hrest, ha]

theorem noneBeforeLast_of_all (p : ChatItem → Bool) (l : List ChatItem)
    (h : ∀ i ∈ l, p i = false) : noneBeforeLast p l = true := by
  induction l with
  | nil => rfl
  | cons a l ih =>
    have ha : p a = false := h a (List.mem_cons_self a l)
    have hrest := ih (fun i hi => h i (List.mem_cons_of_mem a hi))
    rcases l with _ | ⟨b, l⟩
    · rfl
    · simp only [noneBeforeLast, ha] at hrest ⊢
      simp [hrest]

/-- Shape of one batch of the OllamaStyle line loop: while it has not
stopped, everything emitted is a non-terminal chunk; when it stops, the
items are non-terminal chunks followed by one final item (the `done=true`
chunk or the JSON error). -/
theorem ollamaProcLines_shape (parse : Str → Option OllamaChatChunk)
    (model : Str) (ls : List Str) :
    ((ollamaProcLines parse model ls).2 = true →
      ∃ pfx last, (ollamaProcLines parse model ls).1 = pfx ++ [last] ∧
        chunksOnly pfx = true) ∧
    ((ollamaProcLines parse model ls).2 = false →
      chunksOnly (ollamaProcLines parse model ls).1 = true) := by
  induction ls with
  | nil => simp [ollamaProcLines, chunksOnly]
  | cons l ls ih =>
    by_cases ht : trim l = []
    · rw [oll_skip_empty parse model l ls ht]
      exact ih
    · rcases hp : parse (trim l) with _ | c
      · rw [oll_parse_fail parse model l ls ht hp]
        constructor
        · intro
          exact ⟨[], .error .jsonError, rfl, rfl⟩
        · intro h
          simp at h
      · rcases hm : c.message with _ | m
        · rw [oll_no_msg parse model l ls c ht hp hm]
          exact ih
        · rcases hd : c.done with _ | _
          · rw [oll_msg_more parse model l ls c m ht hp hm hd]
            constructor
            · intro h2
              simp only at h2
              rcases ih.1 h2 with ⟨pfx, last, he, hc⟩
              refine ⟨.ok (mkChunk model m.content false) :: pfx, last, ?_, ?_⟩
              · simp [he]
              · simp [chunksOnly, mkChunk] at hc ⊢
                exact hc
            · intro h2
              simp only at h2
              have := ih.2 h2
              simp [chunksOnly, mkChunk] at this ⊢
              exact this
          · rw [oll_msg_done parse model l ls c m ht hp hm hd]
            constructor
            · intro
              exact ⟨[], .ok (mkChunk model m.content true), rfl, rfl⟩
            · intro h
              simp at h

/-- Shape of one batch of the OpenAIStyle line loop: everything emitted is a
non-terminal chunk, except that a JSON parse error ends the batch with the
error as its one final extra item. -/
theorem openaiProcLines_shape (parse : Str → Option OpenaiChatChunk)
    (model : Str) (ls : List Str) :
    ((openaiProcLines parse model ls).2 = .errored →
      ∃ pfx, (openaiProcLines parse model ls).1 = pfx ++ [.error .jsonError] ∧
        chunksOnly pfx = true) ∧
    ((openaiProcLines parse model ls).2 ≠ .errored →
      chunksOnly (openaiProcLines parse model ls).1 = true) := by
  induction ls with
  | nil => simp [openaiProcLines, chunksOnly]
  | cons l ls ih =>
    by_cases ht : trim l = []
    · rw [opa_skip_empty parse model l ls ht]
      exact ih
    · by_cases hdl : trim l = doneLine
      · rw [opa_sentinel parse model l ls hdl]
        constructor
        · intro h
          simp at h
        · intro
          rfl
      · rcases hs : stripDataTag (trim l) with _ | d
        · rw [opa_no_tag parse model l ls ht hdl hs]
          exact ih
        · rcases hp : parse d with _ | c
          · rw [opa_parse_fail parse model l d ls ht hdl hs hp]
            constructor
            · intro
              exact ⟨[], rfl, rfl⟩
            · intro h
              simp at h
          · rcases hc : deltaContent c with _ | content
            · rw [opa_no_content parse model l d ls c ht hdl hs hp hc]
              exact ih
            · rw [opa_content parse model l d ls c content ht hdl hs hp hc]
              constructor
              · intro h2
                simp only at h2
                rcases ih.1 h2 with ⟨pfx, he, hcc⟩
                refine ⟨.ok (mkChunk model content false) :: pfx, ?_, ?_⟩
                · simp [he]
                · simp [chunksOnly, mkChunk] at hcc ⊢
                  exact hcc
              · intro h2
                simp only at h2
                have := ih.2 h2
                simp [chunksOnly, mkChunk] at this ⊢
                exact this

/-- Shape of the whole OllamaStyle fragment loop output: either every item
is a non-terminal chunk (upstream closed with no stop), or the output is
non-terminal chunks followed by exactly one final stopping item. -/
theorem ollamaRun_shape (parse : Str → Option OllamaChatChunk) (model : Str)
    (evs : List ReadEvent) (buf : Str) :
    chunksOnly (ollamaRun parse model evs buf) = true ∨
    ∃ pfx last, ollamaRun parse model evs buf = pfx ++ [last] ∧
      chunksOnly pfx = true := by
  induction evs generalizing buf with
  | nil =>
    left
    rw [ollamaRun.eq_def]
    rfl
  | cons ev evs ih =>
    rcases ev with bs | _
    · rcases hdec : utf8Decode bs with _ | s
      · right
        refine ⟨[], .error .utf8Error, ?_, rfl⟩
        rw [ollamaRun.eq_def]
        simp [hdec]
      · rw [ollamaRun_bytes parse model bs s evs buf hdec]
        rcases hq : (ollamaProcLines parse model (splitNl (buf ++ s)).1).2 with _ | _
        · rw [if_neg (by simp [hq])]
          have hch := (ollamaProcLines_shape parse model (splitNl (buf ++ s)).1).2 hq
          rcases ih (splitNl (buf ++ s)).2 with hc | ⟨pfx, last, he, hcc⟩
          · left
            rw [chunksOnly_append]
            simp [hch, hc]
          · right
            refine ⟨(ollamaProcLines parse model (splitNl (buf ++ s)).1).1 ++ pfx,
              last, ?_, ?_⟩
            · rw [he, List.append_assoc]
            · rw [chunksOnly_append]
              simp [hch, hcc]
        · rw [if_pos (by simp [hq])]
          rcases (ollamaProcLines_shape parse model (splitNl (buf ++ s)).1).1 hq
            with ⟨pfx, last, he, hcc⟩
          right
          exact ⟨pfx, last, he, hcc⟩
    · right
      refine ⟨[], .error .streamReadError, ?_, rfl⟩
      rw [ollamaRun.eq_def]
      rfl

/-- Shape of the whole OpenAIStyle fragment loop output: non-terminal chunks
followed by exactly one final item, which is the synthetic terminal chunk on
every non-error path and an error item otherwise. -/
theorem openaiRun_shape (parse : Str → Option OpenaiChatChunk) (model : Str)
    (evs : List ReadEvent) (buf : Str) :
    (∃ pfx, openaiRun parse model evs buf = pfx ++ [.ok (termChunk model)] ∧
      chunksOnly pfx = true) ∨
    (∃ pfx e, openaiRun parse model evs buf = pfx ++ [.error e] ∧
      chunksOnly pfx = true) := by
  induction evs generalizing buf with
  | nil =>
    left
    refine ⟨[], ?_, rfl⟩
    rw [openaiRun.eq_def]
    rfl
  | cons ev evs ih =>
    rcases ev with bs | _
    · rcases hdec : utf8Decode bs with _ | s
      · right
        refine ⟨[], .utf8Error, ?_, rfl⟩
        rw [openaiRun.eq_def]
        simp [hdec]
      · rw [openaiRun_bytes parse model bs s evs buf hdec]
        rcases hq : (openaiProcLines parse model (splitNl (buf ++ s)).1).2 with _ | _ | _
        · have hch := (openaiProcLines_shape parse model (splitNl (buf ++ s)).1).2
            (by simp [hq])
          rcases ih (splitNl (buf ++ s)).2 with ⟨pfx, he, hcc⟩ | ⟨pfx, e, he, hcc⟩
          · left
            refine ⟨(openaiProcLines parse model (splitNl (buf ++ s)).1).1 ++ pfx,
              ?_, ?_⟩
            · rw [he, List.append_assoc]
            · rw [chunksOnly_append]
              simp [hch, hcc]
          · right
            refine ⟨(openaiProcLines parse model (splitNl (buf ++ s)).1).1 ++ pfx,
              e, ?_, ?_⟩
            · rw [he, List.append_assoc]
            · rw [chunksOnly_append]
              simp [hch, hcc]
        · have hch := (openaiProcLines_shape parse model (splitNl (buf ++ s)).1).2
            (by simp [hq])
          left
          exact ⟨(openaiProcLines parse model (splitNl (buf ++ s)).1).1, rfl, hch⟩
        · rcases (openaiProcLines_shape parse model (splitNl (buf ++ s)).1).1 hq
            with ⟨pfx, he, hcc⟩
          right
          exact ⟨pfx, .jsonError, he, hcc⟩
    · right
      refine ⟨[], .streamReadError, ?_, rfl⟩
      rw [openaiRun.eq_def]
      rfl

/-! ### Aggregation -/

/-- No item of the stream is an error item. -/
def errFree (l : List ChatItem) : Bool := l.all (fun i => !isErrItem i)

/-- The concatenation, in arrival order, of the `message.content` of every
chunk with `done = false` (terminal chunks and error items contribute
nothing). -/
def streamText (items : List ChatItem) : Str :=
  items.flatMap (fun i => match i with
    | .ok c => if c.done then [] else c.message.content
    | .error _ => [])

theorem collect_go_ok (items : List ChatItem) (acc : Str)
    (h : errFree items = true) :
    collect_go acc items = .ok (acc ++ streamText items) := by
  induction items generalizing acc with
  | nil => simp [collect_go, streamText]
  | cons i items ih =>
    rcases i with e | c
    · simp [errFree, isErrItem] at h
    · have hrest : errFree items = true := by
        simp only [errFree, List.all_cons, Bool.and_eq_true] at h
        exact h.2
      rw [collect_go, ih _ hrest]
      rcases hd : c.done with _ | _
      · simp [streamText, hd, List.append_assoc]
      · simp [streamText, hd]

theorem collect_go_err (pre : List ChatItem) (post : List ChatItem)
    (e : ProviderError) (acc : Str) (h : errFree pre = true) :
    collect_go acc (pre ++ .error e :: post) = .error () := by
  induction pre generalizing acc with
  | nil => simp [collect_go]
  | cons i pre ih =>
    rcases i with e2 | c
    · simp [errFree, isErrItem] at h
    · have hrest : errFree pre = true := by
        simp only [errFree, List.all_cons, Bool.and_eq_true] at h
        exact h.2
      rw [List.cons_append, collect_go, ih _ hrest]

/-! ### Model resolution -/

theorem map_model_name_inj (p x y : Str)
    (h : map_model_name p x = map_model_name p y) : x = y := by
  unfold map_model_name at h
  exact List.append_cancel_left h

/-- In a namespaced catalog over local names `ms`, the first entry whose
namespaced name is `map_model_name pname m` is the entry for `m` itself
(namespacing with a fixed provider name is injective). -/
theorem load_find_aux (pname : Str) (ms : List Str) (m : Str) (hm : m ∈ ms) :
    (ms.map (fun x => Model.mk x (map_model_name pname x))).find?
        (fun mm => mm.model == map_model_name pname m) =
      some ⟨m, map_model_name pname m⟩ := by
  induction ms with
  | nil => cases hm
  | cons a ms ih =>
    rw [List.map_cons]
    by_cases ha : map_model_name pname a = map_model_name pname m
    · have hma : a = m := map_model_name_inj _ _ _ ha
      subst hma
      rw [List.find?_cons_of_pos _ (by simp)]
    · have hmm : m ∈ ms := by
        rcases List.mem_cons.mp hm with hh | hh
        · exact absurd (by rw [hh]) ha
        · exact hh
      rw [List.find?_cons_of_neg _ (by simp [ha])]
      exact ih hmm

/-- In a catalog built by `load_providers`, the first entry whose namespaced
name is `map_model_name info.name m` is the entry for `m` itself. -/
theorem load_find (info : ProviderInfo) (m : Str) (hm : m ∈ info.models) :
    (load_provider info).models.find?
        (fun mm => mm.model == map_model_name info.name m) =
      some ⟨m, map_model_name info.name m⟩ := by
  unfold load_provider
  exact load_find_aux info.name info.models m hm

theorem unmap_model_skip (name : Str) (ps1 rest : List Provider)
    (h : ∀ q ∈ ps1, ∀ mm ∈ q.models, mm.model ≠ name) :
    unmap_model name (ps1 ++ rest) = unmap_model name rest := by
  induction ps1 with
  | nil => rfl
  | cons p ps ih =>
    have hfind : p.models.find? (fun mm => mm.model == name) = none := by
      rw [List.find?_eq_none]
      intro x hx
      simp only [beq_eq_false_iff_ne, ne_eq, Bool.not_eq_true]
      simp [h p (List.mem_cons_self p ps) x hx]
    rw [List.cons_append]
    conv_lhs => rw [unmap_model.eq_def]
    simp only [hfind]
    exact ih (fun q hq => h q (List.mem_cons_of_mem p hq))

theorem unmap_model_cons_found (name : Str) (p : Provider) (ps2 : List Provider)
    (m : Model) (hfind : p.models.find? (fun mm => mm.model == name) = some m) :
    unmap_model name (p :: ps2) = some (p, m.name) := by
  conv_lhs => rw [unmap_model.eq_def]
  simp [hfind]

/-- All namespaced model names exposed by a configuration, in registry
order. -/
def registryNames (infos : List ProviderInfo) : List Str :=
  infos.flatMap (fun i => i.models.map (map_model_name i.name))

instance : DecidableEq ChatItem := fun x y =>
  match x, y with
  | .ok a, .ok b =>
    if h : a = b then isTrue (by rw [h]) else isFalse (fun hh => h (Except.ok.inj hh))
  | .ok _, .error _ => isFalse (fun hh => Except.noConfusion hh)
  | .error _, .ok _ => isFalse (fun hh => Except.noConfusion hh)
  | .error e, .error f =>
    if h : e = f then isTrue (by rw [h]) else isFalse (fun hh => h (Except.error.inj hh))

instance (s : Str) : Decidable (ValidStr s) := by
  unfold ValidStr
  infer_instance

/-! ### Concrete material for the claim instances

The table parsers below agree with `serde_json::from_str` on every string
they are applied to in the theorems of this file (and return `none`
elsewhere, standing in for any parse outcome that is never consulted). -/

def modelM : Str := litStr "m"

def lineHel : Str := litStr "\x7b\"message\":\x7b\"content\":\"hel\"\x7d,\"done\":false\x7d"

def lineLo : Str := litStr "\x7b\"message\":\x7b\"content\":\"lo\"\x7d,\"done\":true\x7d"

def lineDoneOnly : Str := litStr "\x7b\"done\":true\x7d"

def lineAccent : Str := litStr "\x7b\"message\":\x7b\"content\":\"é\"\x7d,\"done\":true\x7d"

def payloadHi : Str := litStr "\x7b\"choices\":[\x7b\"delta\":\x7b\"content\":\"Hi\"\x7d\x7d]\x7d"

def lineHi : Str := litStr "data: " ++ payloadHi

/-- Agrees with `serde_json::from_str::<OllamaChatChunk>` on the four listed
lines. -/
def ollamaLineTable : Str → Option OllamaChatChunk := fun s =>
  if s = lineHel then some ⟨some ⟨litStr "hel"⟩, false⟩
  else if s = lineLo then some ⟨some ⟨litStr "lo"⟩, true⟩
  else if s = lineDoneOnly then some ⟨none, true⟩
  else if s = lineAccent then some ⟨some ⟨litStr "é"⟩, true⟩
  else none

/-- Agrees with `serde_json::from_str::<OpenaiChatChunk>` on `payloadHi`. -/
def openaiLineTable : Str → Option OpenaiChatChunk := fun s =>
  if s = payloadHi then some ⟨[⟨some ⟨some (litStr "Hi")⟩⟩]⟩
  else none

/-- The provider list of the generated example configuration
(`models::config::get_config_demo`). -/
def demoInfos : List ProviderInfo :=
  [⟨litStr "ollama", []⟩,
   ⟨litStr "aliyun",
     [litStr "qwen3-coder-plus", litStr "Moonshot-Kimi-K2-Instruct",
      litStr "qwen3-max", litStr "glm-4.5"]⟩,
   ⟨litStr "openrouter",
     [litStr "anthropic/claude-sonnet-4.5", litStr "openai/o3-pro"]⟩,
   ⟨litStr "tsinghua", [litStr "Qwen3-Coder-Plus", litStr "GLM-4.5"]⟩]

/-- The bytes of a valid one-line OllamaStyle response whose content is the
two-byte character `é`. -/
def accentBytes : List Nat := utf8Encode (lineAccent ++ [10])

/-- A fragmentation of the `hel`/`lo` two-line response that splits the
second line seven characters in. -/
def c2frags : List Str := [lineHel ++ [10] ++ lineLo.take 7, lineLo.drop 7 ++ [10]]

/-! ## The claims -/

/-- **C1.** The claim asks that resolving a namespaced model name present in
no configured provider's catalog be a request-scoped client-facing error
(HTTP 400) that never aborts the process.  The code disagrees: `unmap_model`
in `src/main.rs` ends in `panic!("Model '{}' not found in any provider, but
that is impossible")`, a process abort.  In this embedding the panic branch
is `none`; the theorem evaluates the code on the failing input — the model
name `[unknown]-x` under the generated demo configuration — and shows the
panic branch is reached. -/
theorem claim_C1_panic_reached :
    unmap_model (litStr "[unknown]-x") (load_providers demoInfos) = none := by
  decide

/-- **C2** counterexample.  The claim quantifies over *every* byte-offset
fragmentation of a valid upstream response.  Splitting `accentBytes` — a
valid one-line OllamaStyle response whose content is `é` — at offset 24,
i.e. between the two bytes of the `é` encoding, changes the decode result:
the per-fragment `std::str::from_utf8` rejects the dangling lead byte, so
the fragmented stream decodes to a UTF-8 error instead of the chunk.  The
first conjunct checks the two fragments reassemble to the unfragmented byte
sequence. -/
theorem claim_C2_fragmentation_cex :
    accentBytes.take 24 ++ accentBytes.drop 24 = accentBytes ∧
    ollamaRun ollamaLineTable modelM
        [.bytes (accentBytes.take 24), .bytes (accentBytes.drop 24)] [] ≠
      ollamaRun ollamaLineTable modelM [.bytes accentBytes] [] := by
  constructor
  · exact List.take_append_drop 24 accentBytes
  · decide

/-- **C2** (amended).  For every splitting of a response's *character*
sequence into fragments at character boundaries (equivalently: at byte
offsets that do not fall inside a multi-byte UTF-8 character), both the
OllamaStyle and the OpenAIStyle decoders produce the same item sequence as
for the unfragmented response — for any line parser, hence in particular for
the serde parsers of the source. -/
theorem claim_C2_fragmentation (parseO : Str → Option OllamaChatChunk)
    (parseA : Str → Option OpenaiChatChunk) (model : Str) (frags : List Str)
    (hv : ∀ f ∈ frags, ValidStr f) :
    ollamaRun parseO model (encEvents frags) [] =
      ollamaRun parseO model [.bytes (utf8Encode frags.flatten)] [] ∧
    openaiRun parseA model (encEvents frags) [] =
      openaiRun parseA model [.bytes (utf8Encode frags.flatten)] [] := by
  constructor
  · have h := ollamaRun_flatten parseO model frags [] hv (by simp)
    simpa [encEvents] using h
  · have h := openaiRun_flatten parseA model frags [] hv (by simp)
    simpa [encEvents] using h

/-- Witness for the amended C2: a concrete two-fragment split of the
`hel`/`lo` response that cuts the second line mid-JSON-object. -/
theorem claim_C2_fragmentation_witness :
    (∀ f ∈ c2frags, ValidStr f) ∧
    (ollamaRun ollamaLineTable modelM (encEvents c2frags) [] =
        ollamaRun ollamaLineTable modelM [.bytes (utf8Encode c2frags.flatten)] [] ∧
      openaiRun openaiLineTable modelM (encEvents c2frags) [] =
        openaiRun openaiLineTable modelM [.bytes (utf8Encode c2frags.flatten)] []) :=
  ⟨by decide,
    claim_C2_fragmentation ollamaLineTable openaiLineTable modelM c2frags (by decide)⟩

/-- **C4.** Aggregation: on an error-free stream,
`collect_content_from_stream` returns the concatenation, in arrival order,
of every non-terminal chunk's message content (`streamText`), ignoring
terminal chunks' own content; on a stream whose first error item follows an
error-free prefix, it returns an error, discarding the accumulated
content. -/
theorem claim_C4_aggregation (items pre post : List ChatItem)
    (e : ProviderError) (h1 : errFree items = true) (h2 : errFree pre = true) :
    collect_content_from_stream items = .ok (streamText items) ∧
    collect_content_from_stream (pre ++ .error e :: post) = .error () := by
  constructor
  · unfold collect_content_from_stream
    have h := collect_go_ok items [] h1
    simpa using h
  · exact collect_go_err pre post e [] h2

/-- Witness for C4: the `hel`/`lo` stream aggregates to `hello` (the
terminal chunk's content is not appended), and an error after `hel` discards
the partial text. -/
theorem claim_C4_aggregation_witness :
    (errFree [.ok (mkChunk modelM (litStr "hel") false),
        .ok (mkChunk modelM (litStr "lo") true)] = true) ∧
    (errFree [.ok (mkChunk modelM (litStr "hel") false)] = true) ∧
    (collect_content_from_stream
        [.ok (mkChunk modelM (litStr "hel") false),
          .ok (mkChunk modelM (litStr "lo") true)] =
      .ok (streamText [.ok (mkChunk modelM (litStr "hel") false),
        .ok (mkChunk modelM (litStr "lo") true)]) ∧
    collect_content_from_stream
        ([.ok (mkChunk modelM (litStr "hel") false)] ++
          .error .streamReadError :: [.ok (mkChunk modelM (litStr "x") false)]) =
      .error ()) :=
  ⟨by decide, by decide,
    claim_C4_aggregation
      [.ok (mkChunk modelM (litStr "hel") false), .ok (mkChunk modelM (litStr "lo") true)]
      [.ok (mkChunk modelM (litStr "hel") false)]
      [.ok (mkChunk modelM (litStr "x") false)]
      .streamReadError (by decide) (by decide)⟩

/-- **C10.** Model resolution scans providers in configuration order: if no
provider of the prefix `ps1` exposes the requested namespaced name, and `p`
is the next provider, whose catalog's first entry with that namespaced name
is `m`, then resolution returns provider `p` together with `m`'s local name
— regardless of any later provider (`ps2`) also exposing the name. -/
theorem claim_C10_first_match (name : Str) (ps1 ps2 : List Provider)
    (p : Provider) (m : Model)
    (hskip : ∀ q ∈ ps1, ∀ mm ∈ q.models, mm.model ≠ name)
    (hfind : p.models.find? (fun mm => mm.model == name) = some m) :
    unmap_model name (ps1 ++ p :: ps2) = some (p, m.name) := by
  rw [unmap_model_skip name ps1 (p :: ps2) hskip]
  exact unmap_model_cons_found name p ps2 m hfind

/-- Witness for C10: two providers expose the same namespaced name
`[a]-m1`; resolution picks the earlier-configured one. -/
theorem claim_C10_first_match_witness :
    (∀ q ∈ ([] : List Provider), ∀ mm ∈ q.models, mm.model ≠ litStr "[a]-m1") ∧
    ((Provider.mk (litStr "a") [⟨litStr "m1", litStr "[a]-m1"⟩]).models.find?
        (fun mm => mm.model == litStr "[a]-m1") =
      some ⟨litStr "m1", litStr "[a]-m1"⟩) ∧
    unmap_model (litStr "[a]-m1")
        ([] ++ Provider.mk (litStr "a") [⟨litStr "m1", litStr "[a]-m1"⟩] ::
          [Provider.mk (litStr "b") [⟨litStr "dup", litStr "[a]-m1"⟩]]) =
      some (Provider.mk (litStr "a") [⟨litStr "m1", litStr "[a]-m1"⟩], litStr "m1") :=
  ⟨by decide, by decide,
    claim_C10_first_match (litStr "[a]-m1") []
      [Provider.mk (litStr "b") [⟨litStr "dup", litStr "[a]-m1"⟩]]
      (Provider.mk (litStr "a") [⟨litStr "m1", litStr "[a]-m1"⟩])
      ⟨litStr "m1", litStr "[a]-m1"⟩ (by decide) (by decide)⟩

/-- **C5.** Namespacing round-trips: for a configuration whose namespaced
names are unique across the whole registry (the spec's registry invariant),
resolving `map_model_name P m` for any provider `P = info` and any local
model `m` declared in its catalog returns exactly that provider's handle and
the local name `m`. -/
theorem claim_C5_roundtrip (ps1 ps2 : List ProviderInfo) (info : ProviderInfo)
    (m : Str) (hm : m ∈ info.models)
    (huniq : (registryNames (ps1 ++ info :: ps2)).Nodup) :
    unmap_model (map_model_name info.name m)
        (load_providers (ps1 ++ info :: ps2)) =
      some (load_provider info, m) := by
  have hreg : registryNames (ps1 ++ info :: ps2) =
      registryNames ps1 ++
        (info.models.map (map_model_name info.name) ++ registryNames ps2) := by
    simp [registryNames]
  rw [hreg] at huniq
  have hdisj := (List.nodup_append.mp huniq).2.2
  have htm : map_model_name info.name m ∈
      info.models.map (map_model_name info.name) ++ registryNames ps2 :=
    List.mem_append.mpr (Or.inl (List.mem_map_of_mem _ hm))
  have hskip : ∀ q ∈ load_providers ps1, ∀ mm ∈ q.models,
      mm.model ≠ map_model_name info.name m := by
    intro q hq mm hmm heq
    rcases List.mem_map.mp hq with ⟨i, hi, rfl⟩
    unfold load_provider at hmm
    rcases List.mem_map.mp hmm with ⟨mloc, hmloc, rfl⟩
    simp only at heq
    have hmem : map_model_name i.name mloc ∈ registryNames ps1 := by
      unfold registryNames
      exact List.mem_flatMap.mpr ⟨i, hi, List.mem_map_of_mem _ hmloc⟩
    rw [heq] at hmem
    exact hdisj hmem htm
  have hsplit : load_providers (ps1 ++ info :: ps2) =
      load_providers ps1 ++ load_provider info :: load_providers ps2 := by
    simp [load_providers]
  rw [hsplit, unmap_model_skip _ _ _ hskip,
    unmap_model_cons_found _ _ _ _ (load_find info m hm)]

/-- Witness for C5: a two-provider registry with unique namespaced names;
`[p2]-x` resolves back to provider `p2` and local name `x`. -/
theorem claim_C5_roundtrip_witness :
    (litStr "x" ∈ (ProviderInfo.mk (litStr "p2") [litStr "x"]).models) ∧
    (registryNames ([⟨litStr "p1", [litStr "x"]⟩] ++
        ProviderInfo.mk (litStr "p2") [litStr "x"] :: [])).Nodup ∧
    unmap_model
        (map_model_name (ProviderInfo.mk (litStr "p2") [litStr "x"]).name (litStr "x"))
        (load_providers ([⟨litStr "p1", [litStr "x"]⟩] ++
          ProviderInfo.mk (litStr "p2") [litStr "x"] :: [])) =
      some (load_provider (ProviderInfo.mk (litStr "p2") [litStr "x"]), litStr "x") :=
  ⟨by decide, by decide,
    claim_C5_roundtrip [⟨litStr "p1", [litStr "x"]⟩] []
      (ProviderInfo.mk (litStr "p2") [litStr "x"]) (litStr "x")
      (by decide) (by decide)⟩

/-- **C8** counterexample.  The claim says a successfully parsed line with
no `message` field still has its `done` field checked, ending the stream
when it carries `done=true`.  On the input consisting of the line
`lineDoneOnly` (= `\x7b"done":true\x7d`, parsed as `message: None, done: true`)
followed by the `hel` line, the claim therefore predicts the empty item
sequence.  The code instead skips the messageless line without consulting
`done` — the `if chunk.done` sits inside `if let Some(message)` — and goes
on to emit the `hel` chunk. -/
theorem claim_C8_done_skipped_cex :
    ollamaRun ollamaLineTable modelM
        [.bytes (utf8Encode (lineDoneOnly ++ 10 :: (lineHel ++ [10])))] [] =
      [.ok (mkChunk modelM (litStr "hel") false)] ∧
    ollamaRun ollamaLineTable modelM
        [.bytes (utf8Encode (lineDoneOnly ++ 10 :: (lineHel ++ [10])))] [] ≠ [] := by
  constructor
  · decide
  · decide

/-- **C8** (amended).  A line that parses successfully but has no `message`
field produces no chunk and is skipped entirely: its `done` field is never
consulted (the hypothesis leaves `c.done` arbitrary), so the stream
continues past such a line even when it carries `done=true`. -/
theorem claim_C8_no_message_skip (parse : Str → Option OllamaChatChunk)
    (model l : Str) (ls : List Str) (c : OllamaChatChunk)
    (ht : trim l ≠ []) (hp : parse (trim l) = some c) (hm : c.message = none) :
    ollamaProcLines parse model (l :: ls) = ollamaProcLines parse model ls :=
  oll_no_msg parse model l ls c ht hp hm

/-- Witness for the amended C8: skipping `lineDoneOnly` (which carries
`done=true`) before the `hel` line. -/
theorem claim_C8_no_message_skip_witness :
    (trim lineDoneOnly ≠ []) ∧
    (ollamaLineTable (trim lineDoneOnly) =
      some (OllamaChatChunk.mk none true)) ∧
    ((OllamaChatChunk.mk none true).message = none) ∧
    ollamaProcLines ollamaLineTable modelM (lineDoneOnly :: [lineHel]) =
      ollamaProcLines ollamaLineTable modelM [lineHel] :=
  ⟨by decide, by decide, by decide,
    claim_C8_no_message_skip ollamaLineTable modelM lineDoneOnly [lineHel]
      (OllamaChatChunk.mk none true) (by decide) (by decide) (by decide)⟩

theorem errOnlyLast_ollamaRun (parse : Str → Option OllamaChatChunk)
    (model : Str) (evs : List ReadEvent) (buf : Str) :
    errOnlyLast (ollamaRun parse model evs buf) = true := by
  rcases ollamaRun_shape parse model evs buf with h | ⟨pfx, last, he, hc⟩
  · exact noneBeforeLast_of_all _ _ (chunksOnly_no_err _ h)
  · rw [he]
    exact noneBeforeLast_append_last _ _ _ (chunksOnly_no_err _ hc)

theorem errOnlyLast_openaiRun (parse : Str → Option OpenaiChatChunk)
    (model : Str) (evs : List ReadEvent) (buf : Str) :
    errOnlyLast (openaiRun parse model evs buf) = true := by
  rcases openaiRun_shape parse model evs buf with ⟨pfx, he, hc⟩ | ⟨pfx, e, he, hc⟩
  · rw [he]
    exact noneBeforeLast_append_last _ _ _ (chunksOnly_no_err _ hc)
  · rw [he]
    exact noneBeforeLast_append_last _ _ _ (chunksOnly_no_err _ hc)

/-- The terminal-chunk discipline of a stream: a terminal chunk can only be
the last item; if the stream contains an error item it contains no terminal
chunk at all, and otherwise it is non-empty and ends in a terminal chunk. -/
def terminalLastSpec (l : List ChatItem) : Bool :=
  noneBeforeLast isTermItem l &&
  (if l.any isErrItem then l.all (fun i => !isTermItem i) else lastIsTerm l)

theorem terminalLastSpec_append_term (model : Str) (pfx : List ChatItem)
    (h : chunksOnly pfx = true) :
    terminalLastSpec (pfx ++ [.ok (termChunk model)]) = true := by
  have hterm := chunksOnly_no_term pfx h
  have herr := chunksOnly_no_err pfx h
  unfold terminalLastSpec
  rw [noneBeforeLast_append_last _ _ _ hterm]
  have hany : (pfx ++ [(.ok (termChunk model) : ChatItem)]).any isErrItem = false := by
    rw [List.any_append, Bool.or_eq_false_iff]
    constructor
    · rw [List.any_eq_false]
      intro x hx
      simp [herr x hx]
    · simp [isErrItem]
  rw [hany]
  simp [lastIsTerm, List.getLast?_concat, isTermItem, termChunk, mkChunk]

theorem terminalLastSpec_append_err (pfx : List ChatItem) (e : ProviderError)
    (h : chunksOnly pfx = true) :
    terminalLastSpec (pfx ++ [.error e]) = true := by
  have hterm := chunksOnly_no_term pfx h
  unfold terminalLastSpec
  rw [noneBeforeLast_append_last _ _ _ hterm]
  have hany : (pfx ++ [(.error e : ChatItem)]).any isErrItem = true := by
    rw [List.any_append]
    simp [isErrItem]
  rw [hany]
  simp only [if_true, Bool.true_and]
  rw [List.all_append]
  simp only [Bool.and_eq_true]
  constructor
  · rw [List.all_eq_true]
    intro x hx
    simp [hterm x hx]
  · simp [isTermItem]

/-- **C9.** For every upstream behaviour causing no error, the OpenAIStyle
chat stream ends with exactly one terminal chunk (empty content,
`done=true`) as its last item — including when the upstream closes without
ever sending `data: [DONE]` — a terminal chunk is never followed by any
item, and after an error item no terminal chunk is emitted. -/
theorem claim_C9_terminal_invariant (parse : Str → Option OpenaiChatChunk)
    (model : Str) (up : ChatUpstream) :
    terminalLastSpec (openaiChat parse model up) = true := by
  rcases up with _ | ⟨status, errText, events⟩
  · have h := terminalLastSpec_append_err [] .requestFailed rfl
    simpa [openaiChat] using h
  · rcases hs : is_success status with _ | _
    · have h := terminalLastSpec_append_err [] (.httpError status errText) rfl
      simp only [openaiChat, hs, Bool.false_eq_true, if_false]
      simpa using h
    · simp only [openaiChat, hs, if_true]
      rcases openaiRun_shape parse model events [] with ⟨pfx, he, hc⟩ | ⟨pfx, e, he, hc⟩
      · rw [he]
        exact terminalLastSpec_append_term model pfx hc
      · rw [he]
        exact terminalLastSpec_append_err pfx e hc

/-- **C3.** In the OpenAIStyle decoder, once the (trimmed, complete) line
`data: [DONE]` is reached — after any batch of lines `pre` that did not
already stop the loop — the decode loop ends: the remaining lines `post` and
all further read events `evs` are never consumed, and the output is the
chunks of `pre` followed by exactly one synthetic terminal chunk (empty
content, `done=true`) as the final item. -/
theorem claim_C3_done_sentinel (parse : Str → Option OpenaiChatChunk)
    (model : Str) (pre post : List Str) (evs : List ReadEvent)
    (hv : ∀ l ∈ pre ++ doneLine :: post, ValidStr l)
    (hnl : ∀ l ∈ pre ++ doneLine :: post, ∀ c ∈ l, c ≠ 10)
    (hmore : (openaiProcLines parse model pre).2 = .more) :
    openaiRun parse model
        (.bytes (utf8Encode (unlines (pre ++ doneLine :: post))) :: evs) [] =
      (openaiProcLines parse model pre).1 ++ [.ok (termChunk model)] := by
  have hvu : ValidStr (unlines (pre ++ doneLine :: post)) := by
    intro c hc
    unfold unlines at hc
    rcases List.mem_flatMap.mp hc with ⟨l, hl, hcl⟩
    rcases List.mem_append.mp hcl with h1 | h1
    · exact hv l hl c h1
    · have hc10 : c = 10 := by simpa using h1
      subst hc10
      left
      omega
  rw [openaiRun_bytes parse model _ _ _ _ (utf8Decode_encode _ hvu),
    List.nil_append, splitNl_unlines _ hnl]
  simp only
  rw [openaiProcLines_append, if_pos hmore,
    opa_sentinel parse model doneLine post (by decide)]
  simp

/-- Witness for C3: the spec's scenario C — `data: {"choices":...}` then a
blank line, then `data: [DONE]`, with a discarded trailing line and a
discarded pending read error. -/
theorem claim_C3_done_sentinel_witness :
    (∀ l ∈ [lineHi, []] ++ doneLine :: [lineHi], ValidStr l) ∧
    (∀ l ∈ [lineHi, []] ++ doneLine :: [lineHi], ∀ c ∈ l, c ≠ 10) ∧
    ((openaiProcLines openaiLineTable modelM [lineHi, []]).2 = .more) ∧
    openaiRun openaiLineTable modelM
        (.bytes (utf8Encode (unlines ([lineHi, []] ++ doneLine :: [lineHi]))) ::
          [.readErr]) [] =
      (openaiProcLines openaiLineTable modelM [lineHi, []]).1 ++
        [.ok (termChunk modelM)] :=
  ⟨by decide, by decide, by decide,
    claim_C3_done_sentinel openaiLineTable modelM [lineHi, []] [lineHi] [.readErr]
      (by decide) (by decide) (by decide)⟩

/-- **C7.** In the OllamaStyle decoder, when a complete line `l` parses to a
chunk carrying a message and `done=true` — after a batch `pre` that did not
stop the loop — the chunk is emitted with `done=true` as the final item and
the stream terminates at once: the remaining buffered text `junk` (whether
partial or holding further complete lines) and all further read events `evs`
are discarded. -/
theorem claim_C7_done_terminates (parse : Str → Option OllamaChatChunk)
    (model : Str) (pre : List Str) (l junk : Str) (c : OllamaChatChunk)
    (m : MessageContent) (evs : List ReadEvent)
    (hv : ∀ x ∈ pre ++ [l], ValidStr x) (hvj : ValidStr junk)
    (hnl : ∀ x ∈ pre ++ [l], ∀ ch ∈ x, ch ≠ 10)
    (hpre : (ollamaProcLines parse model pre).2 = false)
    (ht : trim l ≠ []) (hp : parse (trim l) = some c)
    (hm : c.message = some m) (hd : c.done = true) :
    ollamaRun parse model
        (.bytes (utf8Encode (unlines (pre ++ [l]) ++ junk)) :: evs) [] =
      (ollamaProcLines parse model pre).1 ++ [.ok (mkChunk model m.content true)] := by
  have hvu : ValidStr (unlines (pre ++ [l]) ++ junk) := by
    intro ch hch
    rcases List.mem_append.mp hch with h1 | h1
    · unfold unlines at h1
      rcases List.mem_flatMap.mp h1 with ⟨x, hx, hcx⟩
      rcases List.mem_append.mp hcx with h2 | h2
      · exact hv x hx ch h2
      · have hc10 : ch = 10 := by simpa using h2
        subst hc10
        left
        omega
    · exact hvj ch h1
  rw [ollamaRun_bytes parse model _ _ _ _ (utf8Decode_encode _ hvu),
    List.nil_append, splitNl_append (unlines (pre ++ [l])) junk,
    splitNl_unlines _ hnl]
  simp only [List.nil_append]
  have hassoc : (pre ++ [l]) ++ (splitNl junk).1 = pre ++ l :: (splitNl junk).1 := by
    simp
  rw [hassoc, ollamaProcLines_append]
  rw [oll_msg_done parse model l ((splitNl junk).1) c m ht hp hm hd]
  simp [hpre]

/-- Witness for C7: the `hel` line, then the terminating `lo` line; a
further complete line sits in the buffer and a read error is pending, both
discarded. -/
theorem claim_C7_done_terminates_witness :
    (∀ x ∈ [lineHel] ++ [lineLo], ValidStr x) ∧
    (ValidStr (lineHel ++ [10])) ∧
    (∀ x ∈ [lineHel] ++ [lineLo], ∀ ch ∈ x, ch ≠ 10) ∧
    ((ollamaProcLines ollamaLineTable modelM [lineHel]).2 = false) ∧
    (trim lineLo ≠ []) ∧
    (ollamaLineTable (trim lineLo) = some ⟨some ⟨litStr "lo"⟩, true⟩) ∧
    ollamaRun ollamaLineTable modelM
        (.bytes (utf8Encode (unlines ([lineHel] ++ [lineLo]) ++ (lineHel ++ [10]))) ::
          [.readErr]) [] =
      (ollamaProcLines ollamaLineTable modelM [lineHel]).1 ++
        [.ok (mkChunk modelM (litStr "lo") true)] :=
  ⟨by decide, by decide, by decide, by decide, by decide, by decide,
    claim_C7_done_terminates ollamaLineTable modelM [lineHel] lineLo
      (lineHel ++ [10]) ⟨some ⟨litStr "lo"⟩, true⟩ ⟨litStr "lo"⟩ [.readErr]
      (by decide) (by decide) (by decide) (by decide) (by decide) (by decide)
      (by decide) (by decide)⟩

/-- **C6.** For both providers' chat streams, an error item can only be the
final item of the stream — so every failure yields at most one error item
and nothing after it — and each listed failure kind produces exactly that
one error item: request/transport failure and non-2xx upstream status (as
the only item), a stream read failure or invalid UTF-8 fragment (ending the
stream at that point), and malformed JSON on a complete line (stopping the
line loop).  Failures surface as items of the lazily produced stream, not as
a call-time result: `ollamaChat`/`openaiChat` are total in the upstream
behaviour. -/
theorem claim_C6_single_final_error (parseO : Str → Option OllamaChatChunk)
    (parseA : Str → Option OpenaiChatChunk) (model errText l d : Str)
    (ls : List Str) (status : Nat) (up : ChatUpstream) (bs : List Nat)
    (evs : List ReadEvent) (buf : Str)
    (hstatus : is_success status = false) (hbs : utf8Decode bs = none)
    (htl : trim l ≠ []) (hdl : trim l ≠ doneLine)
    (hpl : parseO (trim l) = none)
    (hsd : stripDataTag (trim l) = some d) (hpd : parseA d = none) :
    errOnlyLast (ollamaChat parseO model up) = true ∧
    errOnlyLast (openaiChat parseA model up) = true ∧
    ollamaChat parseO model .requestFail = [.error .requestFailed] ∧
    openaiChat parseA model .requestFail = [.error .requestFailed] ∧
    ollamaChat parseO model (.response status errText evs) =
      [.error (.httpError status errText)] ∧
    openaiChat parseA model (.response status errText evs) =
      [.error (.httpError status errText)] ∧
    ollamaRun parseO model (.readErr :: evs) buf = [.error .streamReadError] ∧
    openaiRun parseA model (.readErr :: evs) buf = [.error .streamReadError] ∧
    ollamaRun parseO model (.bytes bs :: evs) buf = [.error .utf8Error] ∧
    openaiRun parseA model (.bytes bs :: evs) buf = [.error .utf8Error] ∧
    ollamaProcLines parseO model (l :: ls) = ([.error .jsonError], true) ∧
    openaiProcLines parseA model (l :: ls) = ([.error .jsonError], .errored) := by
  refine ⟨?_, ?_, rfl, rfl, ?_, ?_, ?_, ?_, ?_, ?_, ?_, ?_⟩
  · rcases up with _ | ⟨st, tx, es⟩
    · rfl
    · rcases hs : is_success st with _ | _
      · simp only [ollamaChat, hs, Bool.false_eq_true, if_false]
        rfl
      · simp only [ollamaChat, hs, if_true]
        exact errOnlyLast_ollamaRun parseO model es []
  · rcases up with _ | ⟨st, tx, es⟩
    · rfl
    · rcases hs : is_success st with _ | _
      · simp only [openaiChat, hs, Bool.false_eq_true, if_false]
        rfl
      · simp only [openaiChat, hs, if_true]
        exact errOnlyLast_openaiRun parseA model es []
  · simp [ollamaChat, hstatus]
  · simp [openaiChat, hstatus]
  · rw [ollamaRun.eq_def]
  · rw [openaiRun.eq_def]
  · rw [ollamaRun.eq_def]
    simp [hbs]
  · rw [openaiRun.eq_def]
    simp [hbs]
  · exact oll_parse_fail parseO model l ls htl hpl
  · exact opa_parse_fail parseA model l d ls htl hdl hsd hpd

/-- Witness for C6: a 500 status, an ill-formed byte fragment (a dangling
UTF-8 lead byte), the unparsable line `data: oops`, and a concrete upstream
whose body errors mid-stream. -/
theorem claim_C6_single_final_error_witness :
    (is_success 500 = false) ∧
    (utf8Decode [0xC3] = none) ∧
    (trim (litStr "data: oops") ≠ []) ∧
    (trim (litStr "data: oops") ≠ doneLine) ∧
    (ollamaLineTable (trim (litStr "data: oops")) = none) ∧
    (stripDataTag (trim (litStr "data: oops")) = some (litStr "oops")) ∧
    (openaiLineTable (litStr "oops") = none) ∧
    (errOnlyLast (ollamaChat ollamaLineTable modelM
        (.response 200 [] [.bytes (utf8Encode (lineHel ++ [10])), .readErr])) = true ∧
      errOnlyLast (openaiChat openaiLineTable modelM
        (.response 200 [] [.bytes (utf8Encode (lineHel ++ [10])), .readErr])) = true ∧
      ollamaChat ollamaLineTable modelM .requestFail = [.error .requestFailed] ∧
      openaiChat openaiLineTable modelM .requestFail = [.error .requestFailed] ∧
      ollamaChat ollamaLineTable modelM (.response 500 (litStr "boom") []) =
        [.error (.httpError 500 (litStr "boom"))] ∧
      openaiChat openaiLineTable modelM (.response 500 (litStr "boom") []) =
        [.error (.httpError 500 (litStr "boom"))] ∧
      ollamaRun ollamaLineTable modelM (.readErr :: []) [] = [.error .streamReadError] ∧
      openaiRun openaiLineTable modelM (.readErr :: []) [] = [.error .streamReadError] ∧
      ollamaRun ollamaLineTable modelM (.bytes [0xC3] :: []) [] = [.error .utf8Error] ∧
      openaiRun openaiLineTable modelM (.bytes [0xC3] :: []) [] = [.error .utf8Error] ∧
      ollamaProcLines ollamaLineTable modelM (litStr "data: oops" :: []) =
        ([.error .jsonError], true) ∧
      openaiProcLines openaiLineTable modelM (litStr "data: oops" :: []) =
        ([.error .jsonError], .errored)) :=
  ⟨by decide, by decide, by decide, by decide, by decide, by decide, by decide,
    claim_C6_single_final_error ollamaLineTable openaiLineTable modelM
      (litStr "boom") (litStr "data: oops") (litStr "oops") [] 500
      (.response 200 [] [.bytes (utf8Encode (lineHel ++ [10])), .readErr])
      [0xC3] [] [] (by decide) (by decide) (by decide) (by decide) (by decide)
      (by decide) (by decide)⟩

end OllamaProxy
